import Mathlib

/-!
# Text completion helpers (package `complete`)

A shallow embedding of `complete/complete.go`: `MatchSeed`, `ExtendSeed`,
`SeedWhiteSpace` and `EditBasic`, together with the pieces of the Go standard
library they call (`strings.HasPrefix`, `strings.TrimSuffix`, `strings.Replace`,
`unicode.IsSpace`) and the run-time checks of Go's index and slice expressions.

Go strings are byte sequences: a string is a list of byte values (`Nat`, below 256
for a real byte).  A run-time panic is an explicit result, and the one unbounded
loop (`for keep_looking` in `ExtendSeed`) is run on fuel.
-/

namespace Complete

/-- A Go string: its bytes, in order. -/
abbrev Str := List Nat

/-- Result of running a piece of Go code: a value, a run-time panic
(index or slice out of range), or the fuel of an unbounded loop running out. -/
inductive Res (α : Type) where
  | ok (a : α)
  | indexOutOfRange
  | outOfFuel
  deriving DecidableEq, Repr

/-- Sequencing of results: the first failure is the result. -/
def Res.bind {α β : Type} (r : Res α) (f : α → Res β) : Res β :=
  match r with
  | .ok a => f a
  | .indexOutOfRange => .indexOutOfRange
  | .outOfFuel => .outOfFuel

/-- Go's slice expression `xs[lo:hi]` (a string, or a slice whose capacity is its
length): panics unless `0 <= lo <= hi <= len(xs)`. -/
def slice {α : Type} (xs : List α) (lo hi : Int) : Res (List α) :=
  if 0 ≤ lo ∧ lo ≤ hi ∧ hi ≤ (xs.length : Int) then
    .ok ((xs.take hi.toNat).drop lo.toNat)
  else .indexOutOfRange

/-- Go's index expression `xs[i]`: panics unless `0 <= i < len(xs)`. -/
def index {α : Type} (xs : List α) (i : Int) : Res α :=
  if 0 ≤ i then
    match xs[i.toNat]? with
    | some a => .ok a
    | none => .indexOutOfRange
  else .indexOutOfRange

/-- Go's `strings.HasPrefix(s, prefix)`:
`len(s) >= len(prefix) && s[0:len(prefix)] == prefix`. -/
def HasPrefix (s pre : Str) : Bool :=
  decide (s.length ≥ pre.length) && (s.take pre.length == pre)

/-- Go's `strings.HasSuffix(s, suffix)`:
`len(s) >= len(suffix) && s[len(s)-len(suffix):] == suffix`. -/
def HasSuffix (s suf : Str) : Bool :=
  decide (s.length ≥ suf.length) && (s.drop (s.length - suf.length) == suf)

/-- Go's `strings.TrimSuffix(s, suffix)`: `s[:len(s)-len(suffix)]` when `s` ends
with `suffix`, else `s`. -/
def TrimSuffix (s suf : Str) : Str :=
  if HasSuffix s suf then s.take (s.length - suf.length) else s

/-- Go's `strings.Index(s, substr)`: the offset of the first occurrence of
`substr` in `s`, if any. -/
def Index : Str → Str → Option Nat
  | [], sub => if sub = [] then some 0 else none
  | c :: s, sub =>
    if HasPrefix (c :: s) sub then some 0
    else (Index s sub).map (· + 1)

/-- Go's `strings.Replace(s, old, "", 1)`, the only way `ExtendSeed` calls it:
`s` itself when `old` equals the new string `""` or does not occur, otherwise `s`
with its first occurrence of `old` cut out. -/
def ReplaceFirstWithEmpty (s old : Str) : Str :=
  if old = [] then s
  else
    match Index s old with
    | none => s
    | some j => s.take j ++ s.drop (j + old.length)

/-- Go's `unicode.IsSpace(r)` on a code point: the Latin-1 switch
(`'\t'`, `'\n'`, `'\v'`, `'\f'`, `'\r'`, `' '`, U+0085, U+00A0), and the
`White_Space` range table above Latin-1. -/
def IsSpace (r : Nat) : Bool :=
  if r ≤ 0xFF then
    r == 0x09 || r == 0x0A || r == 0x0B || r == 0x0C || r == 0x0D || r == 0x20
      || r == 0x85 || r == 0xA0
  else
    r == 0x1680 || (decide (0x2000 ≤ r) && decide (r ≤ 0x200A)) || r == 0x2028
      || r == 0x2029 || r == 0x202F || r == 0x205F || r == 0x3000

/-! ## MatchSeed -/

/-- The `for i, s := range completions` loop of `MatchSeed`, from index `i` on,
with the current `match_start` and `match_end`. -/
def matchLoop (seed : Str) : List Str → Int → Int → Int → Int × Int
  | [], _, match_start, match_end => (match_start, match_end)
  | s :: rest, i, match_start, match_end =>
    if match_end > -1 then (match_start, match_end)
    else if match_start = -1 then
      if HasPrefix s seed then matchLoop seed rest (i + 1) i match_end
      else matchLoop seed rest (i + 1) match_start match_end
    else if match_start > -1 then
      if HasPrefix s seed = false then matchLoop seed rest (i + 1) match_start i
      else matchLoop seed rest (i + 1) match_start match_end
    else matchLoop seed rest (i + 1) match_start match_end

/-- The values of `match_start` and `match_end` when `MatchSeed` reaches its
final `if`. -/
def matchBounds (completions : List Str) (seed : Str) : Int × Int :=
  if seed.length > 0 then
    let r := matchLoop seed completions 0 (-1) (-1)
    if r.1 > -1 ∧ r.2 = -1 then (r.1, (completions.length : Int)) else r
  else (-1, -1)

/-- `MatchSeed(completions, seed)`. -/
def MatchSeed (completions : List Str) (seed : Str) : Res (List Str) :=
  (slice completions 0 0).bind fun matches0 =>
    let r := matchBounds completions seed
    if r.1 > -1 ∧ r.2 > -1 then slice completions r.1 r.2
    else .ok matches0

/-! ## ExtendSeed -/

/-- The `for keep_looking` loop of `ExtendSeed`: the final `new_seed` and the number
of times the loop body was entered, starting from `new_seed` after `iters`
iterations. -/
def extendLoop (ms : List Str) (first_match : Str) : Nat → Str → Nat → Res (Str × Nat)
  | 0, _, _ => .outOfFuel
  | fuel + 1, new_seed, iters =>
    if first_match.length ≤ new_seed.length then .ok (new_seed, iters + 1)
    else
      (slice first_match 0 ((new_seed.length : Int) + 1)).bind fun potential_seed =>
        if ms.all (fun s => HasPrefix s potential_seed) then
          extendLoop ms first_match fuel potential_seed (iters + 1)
        else .ok (new_seed, iters + 1)

/-- `ExtendSeed(matches, seed)` run with `fuel` for its loop, together with the
number of loop iterations. -/
def ExtendSeedRun (fuel : Nat) (ms : List Str) (seed : Str) : Res (Str × Nat) :=
  (index ms 0).bind fun first_match =>
    (extendLoop ms first_match fuel seed 0).bind fun r =>
      .ok (ReplaceFirstWithEmpty r.1 seed, r.2)

/-- `ExtendSeed(matches, seed)` run with `fuel` for its loop. -/
def ExtendSeed (fuel : Nat) (ms : List Str) (seed : Str) : Res Str :=
  (ExtendSeedRun fuel ms seed).bind fun r => .ok r.1

/-! ## SeedWhiteSpace -/

/-- The `for i := len(text) - 1; i >= 0; i--` loop of `SeedWhiteSpace`, entered
with `i = k - 1`: the final `seedStart`. -/
def seedStartLoop (text : Str) : Nat → Res Nat
  | 0 => .ok 0
  | i + 1 =>
    (index text (i : Int)).bind fun b =>
      if IsSpace b then .ok (i + 1) else seedStartLoop text i

/-- `SeedWhiteSpace(text)`. -/
def SeedWhiteSpace (text : Str) : Res Str :=
  (seedStartLoop text text.length).bind fun seedStart =>
    slice text (seedStart : Int) (text.length : Int)

/-! ## EditBasic -/

/-- `EditBasic(text, cp, completion, seed)`. -/
def EditBasic (text : Str) (cp : Int) (completion seed : Str) : Res (Str × Int) :=
  (slice text 0 cp).bind fun s1 =>
    (slice text cp (text.length : Int)).bind fun s2 =>
      let s1 := TrimSuffix s1 seed
      let s1 := s1 ++ completion
      let t := s1 ++ s2
      .ok (t, (completion.length : Int) - (seed.length : Int))

/-- Go's `<=` on strings: lexicographic order of the bytes. -/
def strLe : Str → Str → Bool
  | [], _ => true
  | _ :: _, [] => false
  | a :: s, b :: t => decide (a < b) || (a == b && strLe s t)

/-- Whether each element of the list is `<=` the next one. -/
def isSorted : List Str → Bool
  | [] => true
  | [_] => true
  | a :: b :: rest => strLe a b && isSorted (b :: rest)

/-- The candidate list is sorted ascending (non-strictly): each element is `<=`
the next. -/
def Sorted (cs : List Str) : Prop := isSorted cs = true

instance (cs : List Str) : Decidable (Sorted cs) :=
  inferInstanceAs (Decidable (isSorted cs = true))

/-! ## Order of strings, and the documented behaviour on decoded text -/

/-- `above seed b`: at the first position where `b` leaves `seed`, still inside
`seed`, the byte of `b` is the larger one. -/
def above : Str → Str → Bool
  | [], _ => false
  | _ :: _, [] => false
  | x :: xs, y :: ys => decide (x < y) || (x == y && above xs ys)

/-- Go's `utf8.EncodeRune` on a valid code point: its UTF-8 bytes. -/
def utf8EncodeRune (r : Nat) : Str :=
  if r < 0x80 then [r]
  else if r < 0x800 then [0xC0 + r / 64, 0x80 + r % 64]
  else if r < 0x10000 then [0xE0 + r / 4096, 0x80 + (r / 64) % 64, 0x80 + r % 64]
  else [0xF0 + r / 262144, 0x80 + (r / 4096) % 64, 0x80 + (r / 64) % 64, 0x80 + r % 64]

/-- The UTF-8 encoding of a text given as its characters (code points). -/
def utf8Encode (rs : List Nat) : Str := rs.flatMap utf8EncodeRune

/-- The documented behaviour of seed extraction, on decoded characters: the
characters after the last one that `unicode.IsSpace` accepts (all of them when there
is none). -/
def SeedWhiteSpaceRunes (rs : List Nat) : List Nat :=
  (rs.reverse.takeWhile (fun r => !IsSpace r)).reverse

/-- The scan of Go's `utf8.ValidString`: `need` continuation bytes are still due, the
next of them within `lo..hi` (the accept ranges that exclude overlong forms,
surrogates and code points above U+10FFFF). -/
def utf8Scan : Str → Nat → Nat → Nat → Bool
  | [], need, _, _ => need == 0
  | b :: rest, 0, _, _ =>
    if b < 0x80 then utf8Scan rest 0 0x80 0xBF
    else if 0xC2 ≤ b ∧ b ≤ 0xDF then utf8Scan rest 1 0x80 0xBF
    else if b = 0xE0 then utf8Scan rest 2 0xA0 0xBF
    else if b = 0xED then utf8Scan rest 2 0x80 0x9F
    else if 0xE1 ≤ b ∧ b ≤ 0xEF then utf8Scan rest 2 0x80 0xBF
    else if b = 0xF0 then utf8Scan rest 3 0x90 0xBF
    else if b = 0xF4 then utf8Scan rest 3 0x80 0x8F
    else if 0xF1 ≤ b ∧ b ≤ 0xF3 then utf8Scan rest 3 0x80 0xBF
    else false
  | b :: rest, need + 1, lo, hi =>
    if lo ≤ b ∧ b ≤ hi then utf8Scan rest need 0x80 0xBF else false

/-- Go's `utf8.ValidString(s)`: whether the bytes are a sequence of well-formed UTF-8
encodings. -/
def ValidString (s : Str) : Bool := utf8Scan s 0 0x80 0xBF

/-! ## Lemmas -/

theorem HasPrefix_iff (s pre : Str) : HasPrefix s pre = true ↔ pre <+: s := by
  unfold HasPrefix
  rw [List.prefix_iff_eq_take]
  constructor
  · intro h
    simp only [Bool.and_eq_true, decide_eq_true_eq, beq_iff_eq] at h
    exact h.2.symm
  · intro h
    simp only [Bool.and_eq_true, decide_eq_true_eq, beq_iff_eq]
    refine ⟨?_, h.symm⟩
    have := congrArg List.length h
    simp only [List.length_take] at this
    omega

theorem HasSuffix_iff (s suf : Str) : HasSuffix s suf = true ↔ suf <:+ s := by
  unfold HasSuffix
  rw [List.suffix_iff_eq_drop]
  constructor
  · intro h
    simp only [Bool.and_eq_true, decide_eq_true_eq, beq_iff_eq] at h
    exact h.2.symm
  · intro h
    simp only [Bool.and_eq_true, decide_eq_true_eq, beq_iff_eq]
    refine ⟨?_, h.symm⟩
    have := congrArg List.length h
    simp only [List.length_drop] at this
    omega

theorem slice_ok {α : Type} (xs : List α) (lo hi : Nat) (h1 : lo ≤ hi) (h2 : hi ≤ xs.length) :
    slice xs (lo : Int) (hi : Int) = .ok ((xs.take hi).drop lo) := by
  unfold slice
  rw [if_pos ⟨by omega, by omega, by omega⟩]
  simp

theorem matchLoop_done (seed : Str) (l : List Str) (i ms me : Int) (h : me > -1) :
    matchLoop seed l i ms me = (ms, me) := by
  cases l with
  | nil => rfl
  | cons s rest => simp [matchLoop, h]

theorem matchLoop_started (seed : Str) (l : List Str) (i m : Int) (hm : 0 ≤ m) (hi : 0 ≤ i) :
    matchLoop seed l i m (-1) =
      (m, if l.dropWhile (fun c => HasPrefix c seed) = [] then -1
          else i + ((l.takeWhile (fun c => HasPrefix c seed)).length : Int)) := by
  induction l generalizing i with
  | nil => simp [matchLoop]
  | cons s rest ih =>
    have hm1 : ¬ m = -1 := by omega
    have hm2 : m > -1 := by omega
    have hneg : ¬ ((-1 : Int) > -1) := by decide
    by_cases hp : HasPrefix s seed = true
    · simp only [matchLoop, hm1, hm2, hp, hneg, if_true, if_false, List.dropWhile_cons,
        List.takeWhile_cons, Bool.true_eq_false]
      rw [ih (i + 1) (by omega)]
      by_cases hd : rest.dropWhile (fun c => HasPrefix c seed) = []
      · simp only [hd, if_true]
      · simp only [hd, if_false, List.length_cons, Nat.cast_add, Nat.cast_one, Prod.mk.injEq,
          true_and]
        omega
    · simp only [Bool.not_eq_true] at hp
      simp only [matchLoop, hm1, hm2, hp, hneg, if_true, if_false, List.dropWhile_cons,
        List.takeWhile_cons, Bool.false_eq_true]
      rw [matchLoop_done _ _ _ _ _ (by omega)]
      simp

theorem matchLoop_fresh (seed : Str) (l : List Str) (i : Int) (hi : 0 ≤ i) :
    matchLoop seed l i (-1) (-1) =
      if l.dropWhile (fun c => !HasPrefix c seed) = [] then (-1, -1)
      else
        (i + ((l.takeWhile (fun c => !HasPrefix c seed)).length : Int),
         if (l.dropWhile (fun c => !HasPrefix c seed)).dropWhile (fun c => HasPrefix c seed) = []
         then -1
         else i + ((l.takeWhile (fun c => !HasPrefix c seed)).length : Int)
            + (((l.dropWhile (fun c => !HasPrefix c seed)).takeWhile
                  (fun c => HasPrefix c seed)).length : Int)) := by
  induction l generalizing i with
  | nil => simp [matchLoop]
  | cons s rest ih =>
    have hneg : ¬ ((-1 : Int) > -1) := by decide
    by_cases hp : HasPrefix s seed = true
    · simp only [matchLoop, hp, hneg, if_true, List.dropWhile_cons, List.takeWhile_cons,
        Bool.not_true, Bool.false_eq_true, if_false]
      rw [matchLoop_started _ _ _ _ hi (by omega)]
      by_cases hd : rest.dropWhile (fun c => HasPrefix c seed) = []
      · simp [hd]
      · simp only [hd, if_false, List.length_cons, Nat.cast_add, Nat.cast_one, List.length_nil,
          Nat.cast_zero, reduceCtorEq, Prod.mk.injEq]
        constructor <;> omega
    · simp only [Bool.not_eq_true] at hp
      simp only [matchLoop, hp, hneg, List.dropWhile_cons, List.takeWhile_cons, Bool.not_false,
        if_true, Bool.false_eq_true, if_false]
      rw [ih (i + 1) (by omega)]
      by_cases hd : rest.dropWhile (fun c => !HasPrefix c seed) = []
      · simp [hd]
      · simp only [hd, if_false, List.length_cons, Nat.cast_add, Nat.cast_one]
        by_cases hd2 : (rest.dropWhile (fun c => !HasPrefix c seed)).dropWhile
            (fun c => HasPrefix c seed) = []
        · simp only [hd2, if_true, Prod.mk.injEq, and_true]
          omega
        · simp only [hd2, if_false, Prod.mk.injEq]
          constructor <;> omega

/-- Without any assumption on the order of the list, `MatchSeed` with a non-empty
seed returns the first run of consecutive elements that have the seed as a prefix. -/
theorem MatchSeed_eq_run (cs : List Str) (seed : Str) (hs : seed ≠ []) :
    MatchSeed cs seed =
      .ok ((cs.dropWhile (fun c => !HasPrefix c seed)).takeWhile (fun c => HasPrefix c seed)) := by
  have hlen : seed.length > 0 := List.length_pos.mpr hs
  have h00 : slice cs 0 0 = .ok [] := by
    have := slice_ok cs 0 0 (le_refl _) (Nat.zero_le _)
    simpa using this
  unfold MatchSeed matchBounds
  rw [h00]
  simp only [Res.bind, hlen, if_true]
  rw [matchLoop_fresh seed cs 0 (le_refl _)]
  have hsplit := List.takeWhile_append_dropWhile (fun c => !HasPrefix c seed) cs
  have hsplit2 := List.takeWhile_append_dropWhile (fun c => HasPrefix c seed)
    (cs.dropWhile (fun c => !HasPrefix c seed))
  generalize hT : cs.takeWhile (fun c => !HasPrefix c seed) = T at *
  generalize hD : cs.dropWhile (fun c => !HasPrefix c seed) = D at *
  generalize hT2 : D.takeWhile (fun c => HasPrefix c seed) = T2 at *
  generalize hD2 : D.dropWhile (fun c => HasPrefix c seed) = D2 at *
  have hneg : ¬ ((-1 : Int) > -1) := by decide
  by_cases hd : D = []
  · subst hd
    simp only [List.takeWhile_nil] at hT2
    subst hT2
    simp [hneg]
  · have hlenD : cs.length = T.length + (T2.length + D2.length) := by
      rw [← hsplit, ← hsplit2]; simp
    have hres : ((cs.take (T.length + T2.length)).drop T.length) = T2 := by
      rw [← hsplit, ← hsplit2, List.take_append_eq_append_take]
      simp
    simp only [hd, if_false, zero_add]
    by_cases hd2 : D2 = []
    · subst hd2
      have h1 : ((T.length : Int) > -1 ∧ (-1 : Int) = -1) := ⟨by omega, rfl⟩
      simp only [if_true, h1, and_self, true_and]
      have h2 : (cs.length : Int) > -1 := by omega
      rw [if_pos h2, slice_ok cs T.length cs.length (by omega) (le_refl _)]
      rw [hlenD]
      simp only [List.length_nil, add_zero]
      rw [hres]
    · have h1 : ¬ ((T.length : Int) > -1 ∧ ((T.length : Int) + (T2.length : Int)) = -1) := by
        omega
      simp only [hd2, if_false, h1]
      have h2 : ((T.length : Int) > -1 ∧ ((T.length : Int) + (T2.length : Int)) > -1) := by
        omega
      rw [if_pos h2]
      have := slice_ok cs T.length (T.length + T2.length) (by omega) (by omega)
      rw [Nat.cast_add] at this
      rw [this, hres]

theorem above_of_le (seed a b : Str) (ha : seed <+: a) (hab : strLe a b = true)
    (hb : ¬ seed <+: b) : above seed b = true := by
  induction seed generalizing a b with
  | nil => exact absurd ( List.nil_prefix) hb
  | cons x xs ih =>
    obtain ⟨r, rfl⟩ := ha
    cases b with
    | nil => simp [strLe] at hab
    | cons y ys =>
      simp only [List.cons_append, strLe, Bool.or_eq_true, decide_eq_true_eq, Bool.and_eq_true,
        beq_iff_eq] at hab
      simp only [above, Bool.or_eq_true, decide_eq_true_eq, Bool.and_eq_true, beq_iff_eq]
      rcases hab with h | ⟨rfl, h⟩
      · exact Or.inl h
      · refine Or.inr ⟨rfl, ih (xs ++ r) ys (List.prefix_append _ _) h ?_⟩
        intro hp
        exact hb (List.cons_prefix_cons.mpr ⟨rfl, hp⟩)

theorem above_mono (seed b c : Str) (hb : above seed b = true) (hbc : strLe b c = true) :
    above seed c = true := by
  induction seed generalizing b c with
  | nil => simp [above] at hb
  | cons x xs ih =>
    cases b with
    | nil => simp [above] at hb
    | cons y ys =>
      cases c with
      | nil => simp [strLe] at hbc
      | cons z zs =>
        simp only [strLe, above, Bool.or_eq_true, decide_eq_true_eq, Bool.and_eq_true,
          beq_iff_eq] at hb hbc ⊢
        rcases hb with h | ⟨rfl, h⟩
        · rcases hbc with h2 | ⟨rfl, _⟩
          · exact Or.inl (lt_trans h h2)
          · exact Or.inl h
        · rcases hbc with h2 | ⟨rfl, h2⟩
          · exact Or.inl h2
          · exact Or.inr ⟨rfl, ih ys zs h h2⟩

theorem not_prefix_of_above (seed b : Str) (hb : above seed b = true) : ¬ seed <+: b := by
  induction seed generalizing b with
  | nil => simp [above] at hb
  | cons x xs ih =>
    cases b with
    | nil => simp [above] at hb
    | cons y ys =>
      simp only [above, Bool.or_eq_true, decide_eq_true_eq, Bool.and_eq_true, beq_iff_eq] at hb
      intro hp
      obtain ⟨hxy, hp2⟩ := List.cons_prefix_cons.mp hp
      rcases hb with h | ⟨_, h⟩
      · exact absurd h (by omega)
      · exact ih ys h hp2

theorem Sorted_cons_cons (a b : Str) (r : List Str) :
    Sorted (a :: b :: r) ↔ strLe a b = true ∧ Sorted (b :: r) := by
  simp [Sorted, isSorted]

theorem Sorted_tail (a : Str) (r : List Str) (h : Sorted (a :: r)) : Sorted r := by
  cases r with
  | nil => rfl
  | cons b r => exact ((Sorted_cons_cons a b r).mp h).2

theorem sorted_above_all (seed t : Str) (r : List Str) (hs : Sorted (t :: r))
    (ht : above seed t = true) : ∀ c ∈ r, above seed c = true := by
  induction r generalizing t with
  | nil => intro c hc; simp at hc
  | cons u r ih =>
    have h := (Sorted_cons_cons _ _ _).mp hs
    have hu := above_mono seed t u ht h.1
    intro c hc
    rcases List.mem_cons.mp hc with rfl | hc
    · exact hu
    · exact ih u h.2 hu c hc

theorem sorted_block (seed s : Str) (rest : List Str) (hs : Sorted (s :: rest))
    (hp : seed <+: s) :
    rest.takeWhile (fun c => HasPrefix c seed) = rest.filter (fun c => HasPrefix c seed) := by
  induction rest generalizing s with
  | nil => rfl
  | cons t r ih =>
    have h := (Sorted_cons_cons _ _ _).mp hs
    by_cases ht : HasPrefix t seed = true
    · simp only [List.takeWhile_cons, List.filter_cons, ht, if_true]
      rw [ih t h.2 ((HasPrefix_iff _ _).mp ht)]
    · have hab := above_of_le seed s t hp h.1 (fun hh => ht ((HasPrefix_iff _ _).mpr hh))
      have hall := sorted_above_all seed t r h.2 hab
      simp only [List.takeWhile_cons, List.filter_cons, ht, if_false, Bool.false_eq_true]
      symm
      rw [List.filter_eq_nil_iff]
      intro c hc hpc
      exact not_prefix_of_above seed c (hall c hc) ((HasPrefix_iff _ _).mp hpc)

theorem sorted_run_eq_filter (seed : Str) (cs : List Str) (hs : Sorted cs) :
    (cs.dropWhile (fun c => !HasPrefix c seed)).takeWhile (fun c => HasPrefix c seed)
      = cs.filter (fun c => HasPrefix c seed) := by
  induction cs with
  | nil => rfl
  | cons s rest ih =>
    by_cases hp : HasPrefix s seed = true
    · simp only [List.dropWhile_cons, hp, Bool.not_true, Bool.false_eq_true, if_false,
        List.takeWhile_cons, if_true, List.filter_cons]
      rw [sorted_block seed s rest hs ((HasPrefix_iff _ _).mp hp)]
    · simp only [List.dropWhile_cons, hp, Bool.not_false, if_true, List.filter_cons,
        Bool.false_eq_true, if_false]
      exact ih (Sorted_tail _ _ hs)

theorem Replace_cuts_seed (r seed : Str) (h : seed <+: r) :
    ReplaceFirstWithEmpty r seed = r.drop seed.length := by
  unfold ReplaceFirstWithEmpty
  by_cases hs : seed = []
  · simp [hs]
  · rw [if_neg hs]
    cases r with
    | nil => exact absurd (List.prefix_nil.mp h) hs
    | cons c s =>
      have hp : HasPrefix (c :: s) seed = true := (HasPrefix_iff _ _).mpr h
      simp [Index, hp]

theorem extendLoop_spec (ms : List Str) (first : Str) (fuel : Nat) (ns : Str) (it : Nat)
    (hfuel : first.length - ns.length < fuel) :
    ∃ r n, extendLoop ms first fuel ns it = .ok (r, n)
      ∧ it < n ∧ n ≤ it + (first.length - ns.length) + 1
      ∧ (r = ns ∨ (ns.length < r.length ∧ r.length ≤ first.length
            ∧ r = first.take r.length ∧ ∀ s ∈ ms, r <+: s))
      ∧ (first.length ≤ r.length ∨ ¬ (∀ s ∈ ms, first.take (r.length + 1) <+: s)) := by
  induction fuel generalizing ns it with
  | zero => omega
  | succ fuel ih =>
    unfold extendLoop
    by_cases hlen : first.length ≤ ns.length
    · rw [if_pos hlen]
      exact ⟨ns, it + 1, rfl, by omega, by omega, Or.inl rfl, Or.inl hlen⟩
    · rw [if_neg hlen]
      have hsl := slice_ok first 0 (ns.length + 1) (Nat.zero_le _) (by omega)
      simp only [Nat.cast_zero, Nat.cast_add, Nat.cast_one, List.drop_zero] at hsl
      rw [hsl]
      simp only [Res.bind]
      have hpl : (first.take (ns.length + 1)).length = ns.length + 1 := by
        rw [List.length_take]; omega
      by_cases hall : (ms.all fun s => HasPrefix s (first.take (ns.length + 1))) = true
      · rw [if_pos hall]
        obtain ⟨r, n, hr, h1, h2, h3, h4⟩ := ih (first.take (ns.length + 1)) (it + 1)
          (by rw [hpl]; omega)
        rw [hpl] at h2 h3
        refine ⟨r, n, hr, by omega, by omega, Or.inr ?_, h4⟩
        rcases h3 with h3 | ⟨a, b, c, d⟩
        · have hrl : r.length = ns.length + 1 := by rw [h3, hpl]
          refine ⟨by omega, by omega, ?_, ?_⟩
          · rw [hrl]; exact h3
          · intro s hs
            rw [h3]
            exact (HasPrefix_iff _ _).mp (List.all_eq_true.mp hall s hs)
        · exact ⟨by omega, b, c, d⟩
      · rw [if_neg hall]
        refine ⟨ns, it + 1, rfl, by omega, by omega, Or.inl rfl, Or.inr ?_⟩
        intro hcontra
        apply hall
        rw [List.all_eq_true]
        intro s hs
        exact (HasPrefix_iff _ _).mpr (hcontra s hs)

/-- With enough fuel, on a non-empty list, the run of `ExtendSeed` ends normally, and
its final `new_seed` and iteration count are as `extendLoop_spec` says. -/
theorem ExtendSeedRun_spec (first : Str) (rest : List Str) (seed : Str) (fuel : Nat)
    (hfuel : first.length < fuel) :
    ∃ r n, ExtendSeedRun fuel (first :: rest) seed = .ok (ReplaceFirstWithEmpty r seed, n)
      ∧ ExtendSeed fuel (first :: rest) seed = .ok (ReplaceFirstWithEmpty r seed)
      ∧ n ≤ first.length + 1
      ∧ (r = seed ∨ (seed.length < r.length ∧ r.length ≤ first.length
            ∧ r = first.take r.length ∧ ∀ s ∈ first :: rest, r <+: s))
      ∧ (first.length ≤ r.length ∨ ¬ (∀ s ∈ first :: rest, first.take (r.length + 1) <+: s)) := by
  obtain ⟨r, n, hr, _, h2, h3, h4⟩ :=
    extendLoop_spec (first :: rest) first fuel seed 0 (by omega)
  refine ⟨r, n, ?_, ?_, by omega, h3, h4⟩
  · simp [ExtendSeedRun, index, Res.bind, hr]
  · simp [ExtendSeed, ExtendSeedRun, index, Res.bind, hr]

/-- When the seed is a prefix of every element, the run ends with `new_seed` a prefix
of the first element, at least as long as the seed, shared by all elements and not
extendable; the returned extension is `new_seed` without its first `len(seed)` bytes. -/
theorem ExtendSeed_prefix_spec (first : Str) (rest : List Str) (seed : Str) (fuel : Nat)
    (hfuel : first.length < fuel) (hseed : ∀ m ∈ first :: rest, seed <+: m) :
    ∃ ext, ExtendSeed fuel (first :: rest) seed = .ok ext
      ∧ (∀ m ∈ first :: rest, seed ++ ext <+: m)
      ∧ (∀ q : Str, (∀ m ∈ first :: rest, q <+: m) → q.length ≤ (seed ++ ext).length) := by
  obtain ⟨r, n, _, hr, _, h3, h4⟩ := ExtendSeedRun_spec first rest seed fuel hfuel
  have hsf : seed <+: first := hseed first (List.mem_cons_self _ _)
  have hrall : ∀ s ∈ first :: rest, r <+: s := by
    rcases h3 with h3 | ⟨_, _, _, d⟩
    · rw [h3]; exact hseed
    · exact d
  have hrf : r <+: first := hrall first (List.mem_cons_self _ _)
  have hsr : seed <+: r := by
    rcases h3 with h3 | ⟨a, _, _, _⟩
    · rw [h3]
    · exact List.prefix_of_prefix_length_le hsf hrf (by omega)
  have hcat : seed ++ ReplaceFirstWithEmpty r seed = r := by
    rw [Replace_cuts_seed r seed hsr]
    obtain ⟨t, rfl⟩ := hsr
    simp
  refine ⟨ReplaceFirstWithEmpty r seed, hr, ?_, ?_⟩
  · rw [hcat]; exact hrall
  · intro q hq
    rw [hcat]
    by_contra hlt
    have hqf : q <+: first := hq first (List.mem_cons_self _ _)
    have hql : q.length ≤ first.length := hqf.length_le
    rcases h4 with h4 | h4
    · omega
    · apply h4
      intro s hs
      have h1 : first.take (r.length + 1) <+: q :=
        List.prefix_of_prefix_length_le ( List.take_prefix _ _) hqf
          (by rw [List.length_take]; omega)
      exact h1.trans (hq s hs)

theorem index_ok {α : Type} (xs : List α) (i : Nat) (h : i < xs.length) :
    index xs (i : Int) = .ok xs[i] := by
  unfold index
  rw [if_pos (by omega)]
  simp [List.getElem?_eq_getElem h]

theorem seedStartLoop_spec (text : Str) (k : Nat) (hk : k ≤ text.length) :
    ∃ j, seedStartLoop text k = .ok j ∧ j ≤ k
      ∧ (∀ i b, j ≤ i → i < k → text[i]? = some b → IsSpace b = false)
      ∧ (j = 0 ∨ ∃ b, text[j - 1]? = some b ∧ IsSpace b = true) := by
  induction k with
  | zero =>
    exact ⟨0, rfl, le_refl _, fun i b _ h => absurd h (by omega), Or.inl rfl⟩
  | succ i ih =>
    have hi : i < text.length := by omega
    unfold seedStartLoop
    rw [index_ok text i hi]
    simp only [Res.bind]
    by_cases hsp : IsSpace text[i] = true
    · rw [if_pos hsp]
      refine ⟨i + 1, rfl, le_refl _, fun i' b h1 h2 => absurd h2 (by omega), Or.inr ?_⟩
      exact ⟨text[i], by simp [List.getElem?_eq_getElem hi], hsp⟩
    · rw [if_neg hsp]
      obtain ⟨j, hj, hjk, hno, hlast⟩ := ih (by omega)
      refine ⟨j, hj, by omega, ?_, hlast⟩
      intro i' b h1 h2 hget
      by_cases hii : i' = i
      · subst hii
        rw [List.getElem?_eq_getElem hi] at hget
        cases hget
        simpa using hsp
      · exact hno i' b h1 (by omega) hget

/-- `SeedWhiteSpace` always returns, and returns the suffix of `text` after the last
byte that `unicode.IsSpace(rune(b))` accepts (the whole text when there is none). -/
theorem SeedWhiteSpace_spec (text : Str) :
    ∃ j, SeedWhiteSpace text = .ok (text.drop j) ∧ j ≤ text.length
      ∧ (∀ b ∈ text.drop j, IsSpace b = false)
      ∧ (j = 0 ∨ ∃ b, text[j - 1]? = some b ∧ IsSpace b = true) := by
  obtain ⟨j, hj, hjk, hno, hlast⟩ := seedStartLoop_spec text text.length (le_refl _)
  refine ⟨j, ?_, hjk, ?_, hlast⟩
  · unfold SeedWhiteSpace
    rw [hj]
    simp only [Res.bind]
    rw [slice_ok text j text.length hjk (le_refl _)]
    simp
  · intro b hb
    obtain ⟨n, hn⟩ := List.getElem?_of_mem hb
    rw [List.getElem?_drop] at hn
    have hlt : j + n < text.length := by
      by_contra hge
      rw [List.getElem?_eq_none (by omega)] at hn
      cases hn
    exact hno (j + n) b (by omega) hlt hn

theorem SeedWhiteSpace_after_last (pre suf : Str) (w : Nat) (hw : IsSpace w = true)
    (hsuf : ∀ b ∈ suf, IsSpace b = false) :
    SeedWhiteSpace (pre ++ w :: suf) = .ok suf := by
  obtain ⟨j, hj, hjk, hno, hlast⟩ := SeedWhiteSpace_spec (pre ++ w :: suf)
  have hj1 : j = pre.length + 1 := by
    by_contra hne
    rcases Nat.lt_or_gt_of_ne hne with hlt | hgt
    · have hmem : w ∈ (pre ++ w :: suf).drop j := by
        have : (pre ++ w :: suf).drop j = pre.drop j ++ w :: suf := by
          rw [List.drop_append_eq_append_drop]
          have : j - pre.length = 0 := by omega
          rw [this]; rfl
        rw [this]; simp
      have := hno w hmem
      rw [hw] at this
      cases this
    · rcases hlast with h0 | ⟨b, hb, hbs⟩
      · omega
      · obtain ⟨m, hm⟩ : ∃ m, j - 1 - pre.length = m + 1 := ⟨j - 1 - pre.length - 1, by omega⟩
        have hidx : (pre ++ w :: suf)[j - 1]? = suf[m]? := by
          rw [List.getElem?_append_right (by omega), hm, List.getElem?_cons_succ]
        rw [hidx] at hb
        have := hsuf b (List.getElem?_mem hb)
        rw [hbs] at this
        cases this
  rw [hj, hj1]
  congr 1
  rw [List.drop_append_eq_append_drop]
  simp

theorem SeedWhiteSpace_no_space (text : Str) (h : ∀ b ∈ text, IsSpace b = false) :
    SeedWhiteSpace text = .ok text := by
  obtain ⟨j, hj, hjk, hno, hlast⟩ := SeedWhiteSpace_spec text
  rcases hlast with h0 | ⟨b, hb, hbs⟩
  · rw [hj, h0]; rfl
  · have := h b (List.getElem?_mem hb)
    rw [hbs] at this
    cases this

theorem IsSpace_ascii (b : Nat) (hb : b < 0x80) :
    IsSpace b = true ↔ b ∈ [0x20, 0x09, 0x0A, 0x0B, 0x0C, 0x0D] := by
  unfold IsSpace
  rw [if_pos (by omega)]
  simp only [Bool.or_eq_true, beq_iff_eq, List.mem_cons, List.mem_singleton]
  constructor
  · intro h; simp at h ⊢; omega
  · intro h; simp at h ⊢; omega

theorem TrimSuffix_append (u seed : Str) : TrimSuffix (u ++ seed) seed = u := by
  unfold TrimSuffix
  rw [if_pos ((HasSuffix_iff _ _).mpr (List.suffix_append u seed))]
  simp

theorem TrimSuffix_of_not_suffix (s seed : Str) (h : ¬ seed <:+ s) : TrimSuffix s seed = s := by
  unfold TrimSuffix
  rw [if_neg (fun hh => h ((HasSuffix_iff _ _).mp hh))]

theorem EditBasic_eq (text : Str) (cp : Int) (completion seed : Str)
    (h0 : 0 ≤ cp) (h1 : cp ≤ (text.length : Int)) :
    EditBasic text cp completion seed =
      .ok (TrimSuffix (text.take cp.toNat) seed ++ completion ++ text.drop cp.toNat,
           (completion.length : Int) - (seed.length : Int)) := by
  obtain ⟨n, rfl⟩ := Int.eq_ofNat_of_zero_le h0
  have hn : n ≤ text.length := by omega
  have e1 := slice_ok text 0 n (Nat.zero_le _) hn
  have e2 := slice_ok text n text.length hn (le_refl _)
  simp only [Nat.cast_zero, List.drop_zero, List.take_length] at e1 e2
  unfold EditBasic
  rw [e1, e2]
  simp [Res.bind]

theorem extendLoop_fuel_mono (ms : List Str) (first : Str) (fuel k : Nat) (ns : Str) (it : Nat)
    (r : Str × Nat) (h : extendLoop ms first fuel ns it = .ok r) :
    extendLoop ms first (fuel + k) ns it = .ok r := by
  induction fuel generalizing ns it with
  | zero => simp [extendLoop] at h
  | succ fuel ih =>
    have hk : fuel + 1 + k = (fuel + k) + 1 := by omega
    rw [hk]
    unfold extendLoop at h ⊢
    by_cases hlen : first.length ≤ ns.length
    · rw [if_pos hlen] at h ⊢; exact h
    · rw [if_neg hlen] at h ⊢
      cases hsl : slice first 0 ((ns.length : Int) + 1) with
      | ok p =>
        rw [hsl] at h
        simp only [Res.bind] at h ⊢
        by_cases hall : (ms.all fun s => HasPrefix s p) = true
        · rw [if_pos hall] at h ⊢; exact ih p (it + 1) h
        · rw [if_neg hall] at h ⊢; exact h
      | indexOutOfRange => rw [hsl] at h; simp [Res.bind] at h
      | outOfFuel => rw [hsl] at h; simp [Res.bind] at h

/-- The value returned by `ExtendSeed` does not depend on the fuel, once there is
enough of it to return. -/
theorem ExtendSeed_fuel_mono (ms : List Str) (seed : Str) (fuel k : Nat) (e : Str)
    (h : ExtendSeed fuel ms seed = .ok e) : ExtendSeed (fuel + k) ms seed = .ok e := by
  unfold ExtendSeed ExtendSeedRun at h ⊢
  cases hi : index ms 0 with
  | ok first =>
    rw [hi] at h
    simp only [Res.bind] at h ⊢
    cases hl : extendLoop ms first fuel seed 0 with
    | ok r =>
      rw [hl] at h
      rw [extendLoop_fuel_mono ms first fuel k seed 0 r hl]
      exact h
    | indexOutOfRange => rw [hl] at h; simp at h
    | outOfFuel => rw [hl] at h; simp at h
  | indexOutOfRange => rw [hi] at h; simp [Res.bind] at h
  | outOfFuel => rw [hi] at h; simp [Res.bind] at h

/-! ## Claims -/

/-- C1: on a candidate list sorted in ascending byte order and a non-empty seed,
`MatchSeed` returns exactly the sub-list of the candidates that have the seed as a
prefix, in their original order and with duplicates kept; so every returned element
has the seed as a prefix and every candidate with the seed as a prefix is returned. -/
theorem MatchSeed_sorted (cs : List Str) (seed : Str) (hsorted : Sorted cs)
    (hseed : seed ≠ []) :
    ∃ r, MatchSeed cs seed = .ok r
      ∧ r = cs.filter (fun c => decide (seed <+: c))
      ∧ (∀ c ∈ r, seed <+: c)
      ∧ (∀ c ∈ cs, seed <+: c → c ∈ r) := by
  have hfil : cs.filter (fun c => HasPrefix c seed) = cs.filter (fun c => decide (seed <+: c)) := by
    apply List.filter_congr
    intro c _
    by_cases h : seed <+: c
    · simp [h, (HasPrefix_iff c seed).mpr h]
    · have : HasPrefix c seed = false := by
        rw [← Bool.not_eq_true]; exact fun hh => h ((HasPrefix_iff c seed).mp hh)
      simp [h, this]
  refine ⟨cs.filter (fun c => decide (seed <+: c)), ?_, rfl, ?_, ?_⟩
  · rw [MatchSeed_eq_run cs seed hseed, sorted_run_eq_filter seed cs hsorted, hfil]
  · intro c hc
    simpa using (List.mem_filter.mp hc).2
  · intro c hc hp
    exact List.mem_filter.mpr ⟨hc, by simpa using hp⟩

/-- Witness for C1: `["foo","foobar","foobaz","zeta"]` with seed `"foo"`. -/
theorem MatchSeed_sorted_witness :
    Sorted [[102, 111, 111], [102, 111, 111, 98, 97, 114], [102, 111, 111, 98, 97, 122],
        [122, 101, 116, 97]]
      ∧ ([102, 111, 111] : Str) ≠ []
      ∧ (∃ r, MatchSeed [[102, 111, 111], [102, 111, 111, 98, 97, 114],
              [102, 111, 111, 98, 97, 122], [122, 101, 116, 97]] [102, 111, 111] = .ok r
          ∧ r = [[102, 111, 111], [102, 111, 111, 98, 97, 114], [102, 111, 111, 98, 97, 122],
              [122, 101, 116, 97]].filter (fun c => decide ([102, 111, 111] <+: c))
          ∧ (∀ c ∈ r, [102, 111, 111] <+: c)
          ∧ (∀ c ∈ [[102, 111, 111], [102, 111, 111, 98, 97, 114],
              [102, 111, 111, 98, 97, 122], [122, 101, 116, 97]], [102, 111, 111] <+: c → c ∈ r))
      ∧ MatchSeed [[102, 111, 111], [102, 111, 111, 98, 97, 114],
              [102, 111, 111, 98, 97, 122], [122, 101, 116, 97]] [102, 111, 111]
          = .ok [[102, 111, 111], [102, 111, 111, 98, 97, 114], [102, 111, 111, 98, 97, 122]] :=
  ⟨by decide, by decide, MatchSeed_sorted _ _ (by decide) (by decide), by decide⟩

/-- C8: with the empty seed `MatchSeed` returns the empty list, for every candidate
list, sorted or not, the empty (or nil) list included. -/
theorem MatchSeed_empty_seed (cs : List Str) : MatchSeed cs [] = .ok [] := by
  have h00 : slice cs 0 0 = .ok [] := by
    have := slice_ok cs 0 0 (le_refl _) (Nat.zero_le _)
    simpa using this
  unfold MatchSeed matchBounds
  rw [h00]
  simp [Res.bind]

/-- C2: for a non-empty list and a seed (possibly empty) that is a prefix of every
element, `ExtendSeed` returns, and `seed ++ ExtendSeed(matches, seed)` is the longest
common prefix of the elements: it is a prefix of each, and every string that is a
prefix of each is no longer than it (and is a prefix of it). -/
theorem ExtendSeed_longest_common (first : Str) (rest : List Str) (seed : Str) (fuel : Nat)
    (hfuel : first.length < fuel) (hseed : ∀ m ∈ first :: rest, seed <+: m) :
    ∃ ext, ExtendSeed fuel (first :: rest) seed = .ok ext
      ∧ (∀ m ∈ first :: rest, seed ++ ext <+: m)
      ∧ (∀ q : Str, (∀ m ∈ first :: rest, q <+: m) →
          q.length ≤ (seed ++ ext).length ∧ q <+: seed ++ ext) := by
  obtain ⟨ext, he, hpre, hmax⟩ := ExtendSeed_prefix_spec first rest seed fuel hfuel hseed
  refine ⟨ext, he, hpre, fun q hq => ⟨hmax q hq, ?_⟩⟩
  exact List.prefix_of_prefix_length_le (hq first (List.mem_cons_self _ _))
    (hpre first (List.mem_cons_self _ _)) (hmax q hq)

/-- Witness for C2: seed `"ab"` with `["abcde","abcdf"]` returns `"cd"`. -/
theorem ExtendSeed_longest_common_witness :
    ([97, 98, 99, 100, 101] : Str).length < 6
      ∧ (∀ m ∈ [[97, 98, 99, 100, 101], [97, 98, 99, 100, 102]], ([97, 98] : Str) <+: m)
      ∧ (∃ ext, ExtendSeed 6 [[97, 98, 99, 100, 101], [97, 98, 99, 100, 102]] [97, 98] = .ok ext
          ∧ (∀ m ∈ [[97, 98, 99, 100, 101], [97, 98, 99, 100, 102]], [97, 98] ++ ext <+: m)
          ∧ (∀ q : Str, (∀ m ∈ [[97, 98, 99, 100, 101], [97, 98, 99, 100, 102]], q <+: m) →
              q.length ≤ ([97, 98] ++ ext).length ∧ q <+: [97, 98] ++ ext))
      ∧ ExtendSeed 6 [[97, 98, 99, 100, 101], [97, 98, 99, 100, 102]] [97, 98] = .ok [99, 100]
      ∧ ExtendSeed 6 [[97, 98, 99, 100, 101], [97, 98, 122]] [97, 98] = .ok []
      ∧ ExtendSeed 4 [[102, 111, 111], [102, 111, 111, 98, 97, 114],
          [102, 111, 111, 98, 97, 122]] [102, 111, 111] = .ok [] :=
  ⟨by decide, by decide,
    ExtendSeed_longest_common [97, 98, 99, 100, 101] [[97, 98, 99, 100, 102]] [97, 98] 6
      (by decide) (by decide),
    by decide, by decide, by decide⟩

/-- C3: for a cursor `0 <= cp <= len(text)`, `EditBasic` returns the text
`P ++ completion ++ text[cp:]`, where `P` is `text[0:cp]` without its trailing `seed`
when `text[0:cp]` ends with `seed` and is `text[0:cp]` otherwise, and the delta
`len(completion) - len(seed)`. -/
theorem EditBasic_result (text : Str) (cp : Int) (completion seed : Str)
    (h0 : 0 ≤ cp) (h1 : cp ≤ (text.length : Int)) :
    ∃ newText, EditBasic text cp completion seed
        = .ok (newText, (completion.length : Int) - (seed.length : Int))
      ∧ (∀ u, text.take cp.toNat = u ++ seed →
          newText = u ++ completion ++ text.drop cp.toNat)
      ∧ (¬ seed <:+ text.take cp.toNat →
          newText = text.take cp.toNat ++ completion ++ text.drop cp.toNat) := by
  refine ⟨_, EditBasic_eq text cp completion seed h0 h1, ?_, ?_⟩
  · intro u hu
    rw [hu, TrimSuffix_append]
  · intro hns
    rw [TrimSuffix_of_not_suffix _ _ hns]

/-- Witness for C3: `EditBasic("foo.bar", 3, "foobaz", "foo") = ("foobaz.bar", 3)`. -/
theorem EditBasic_result_witness :
    (0 : Int) ≤ 3 ∧ (3 : Int) ≤ (([102, 111, 111, 46, 98, 97, 114] : Str).length : Int)
      ∧ (∃ newText, EditBasic [102, 111, 111, 46, 98, 97, 114] 3 [102, 111, 111, 98, 97, 122]
            [102, 111, 111]
          = .ok (newText, (([102, 111, 111, 98, 97, 122] : Str).length : Int)
              - (([102, 111, 111] : Str).length : Int))
        ∧ (∀ u, ([102, 111, 111, 46, 98, 97, 114] : Str).take (3 : Int).toNat
              = u ++ [102, 111, 111] →
            newText = u ++ [102, 111, 111, 98, 97, 122]
              ++ ([102, 111, 111, 46, 98, 97, 114] : Str).drop (3 : Int).toNat)
        ∧ (¬ [102, 111, 111] <:+ ([102, 111, 111, 46, 98, 97, 114] : Str).take (3 : Int).toNat →
            newText = ([102, 111, 111, 46, 98, 97, 114] : Str).take (3 : Int).toNat
              ++ [102, 111, 111, 98, 97, 122]
              ++ ([102, 111, 111, 46, 98, 97, 114] : Str).drop (3 : Int).toNat))
      ∧ EditBasic [102, 111, 111, 46, 98, 97, 114] 3 [102, 111, 111, 98, 97, 122]
          [102, 111, 111]
        = .ok ([102, 111, 111, 98, 97, 122, 46, 98, 97, 114], 3) :=
  ⟨by decide, by decide,
    EditBasic_result [102, 111, 111, 46, 98, 97, 114] 3 [102, 111, 111, 98, 97, 122]
      [102, 111, 111] (by decide) (by decide),
    by decide⟩

/-- C4: the code tests each byte, not each decoded character.  On the one-character
text U+00E0 (bytes C3 A0), which has no whitespace, `SeedWhiteSpace` returns the empty
string, where the documented result is the whole text; on `a`, U+2003 EM SPACE, `b`
(bytes 61 E2 80 83 62) it returns the whole text, where the documented result is `b`. -/
theorem SeedWhiteSpace_bytewise_divergence :
    utf8Encode [0xE0] = [0xC3, 0xA0]
      ∧ SeedWhiteSpace (utf8Encode [0xE0]) = .ok []
      ∧ utf8Encode (SeedWhiteSpaceRunes [0xE0]) = [0xC3, 0xA0]
      ∧ utf8Encode [0x61, 0x2003, 0x62] = [0x61, 0xE2, 0x80, 0x83, 0x62]
      ∧ SeedWhiteSpace (utf8Encode [0x61, 0x2003, 0x62]) = .ok [0x61, 0xE2, 0x80, 0x83, 0x62]
      ∧ utf8Encode (SeedWhiteSpaceRunes [0x61, 0x2003, 0x62]) = [0x62] := by
  decide

/-- C5, as stated, fails: with seed `"x"` and matches `["abc"]` the loop grows
`new_seed` to `"abc"`, `strings.Replace` finds no `"x"` to cut, and `"x" ++ "abc"` is
not a prefix of `"abc"`. -/
theorem ExtendSeed_any_seed_counterexample :
    ExtendSeed 4 [[97, 98, 99]] [120] = .ok [97, 98, 99]
      ∧ ¬ (∀ m ∈ [[97, 98, 99]], ([120] : Str) ++ [97, 98, 99] <+: m) := by
  decide

/-- C5, amended: for a non-empty list and a seed that is a prefix of every element,
`ExtendSeed` returns and `seed ++ ExtendSeed(matches, seed)` is a prefix of every
element. -/
theorem ExtendSeed_common_of_seed_common (first : Str) (rest : List Str) (seed : Str)
    (fuel : Nat) (hfuel : first.length < fuel) (hseed : ∀ m ∈ first :: rest, seed <+: m) :
    ∃ ext, ExtendSeed fuel (first :: rest) seed = .ok ext
      ∧ ∀ m ∈ first :: rest, seed ++ ext <+: m := by
  obtain ⟨ext, he, hpre, _⟩ := ExtendSeed_prefix_spec first rest seed fuel hfuel hseed
  exact ⟨ext, he, hpre⟩

/-- Witness for C5 (amended): seed `"ab"` with `["abcde","abz"]`. -/
theorem ExtendSeed_common_of_seed_common_witness :
    ([97, 98, 99, 100, 101] : Str).length < 6
      ∧ (∀ m ∈ [[97, 98, 99, 100, 101], [97, 98, 122]], ([97, 98] : Str) <+: m)
      ∧ ∃ ext, ExtendSeed 6 [[97, 98, 99, 100, 101], [97, 98, 122]] [97, 98] = .ok ext
          ∧ ∀ m ∈ [[97, 98, 99, 100, 101], [97, 98, 122]], [97, 98] ++ ext <+: m :=
  ⟨by decide, by decide,
    ExtendSeed_common_of_seed_common [97, 98, 99, 100, 101] [[97, 98, 122]] [97, 98] 6
      (by decide) (by decide)⟩

/-- C6, as stated, fails: when `text[0:cp]` does not end with the seed nothing is
removed but the delta still subtracts `len(seed)`.  `EditBasic("xy", 2, "abc", "foo")`
is `("xyabc", 0)`: position `2 + 0` is before the completion, not after it, and the
text grew by 3, not by 0. -/
theorem EditBasic_delta_counterexample :
    EditBasic [120, 121] 2 [97, 98, 99] [102, 111, 111] = .ok ([120, 121, 97, 98, 99], 0)
      ∧ slice ([120, 121, 97, 98, 99] : Str) 0 (2 + 0) = .ok [120, 121]
      ∧ ¬ (([97, 98, 99] : Str) <:+ [120, 121])
      ∧ slice ([120, 121, 97, 98, 99] : Str) (2 + 0) 5 ≠ .ok (([120, 121] : Str).drop 2)
      ∧ ((([120, 121, 97, 98, 99] : Str).length : Int) ≠ (([120, 121] : Str).length : Int) + 0) := by
  decide

/-- C6, amended: for a cursor `0 <= cp <= len(text)` such that `text[0:cp]` ends with
the seed, the delta returned by `EditBasic` is the change in cursor position:
`newText[0 : cp+delta]` ends with the completion, `newText[cp+delta :]` is `text[cp:]`,
and `len(newText) = len(text) + delta`. -/
theorem EditBasic_delta_of_suffix (text : Str) (cp : Int) (completion seed : Str)
    (h0 : 0 ≤ cp) (h1 : cp ≤ (text.length : Int)) (hsuf : seed <:+ text.take cp.toNat) :
    ∃ newText delta, EditBasic text cp completion seed = .ok (newText, delta)
      ∧ (newText.length : Int) = (text.length : Int) + delta
      ∧ (∃ before, slice newText 0 (cp + delta) = .ok before ∧ completion <:+ before)
      ∧ slice newText (cp + delta) (newText.length : Int) = .ok (text.drop cp.toNat) := by
  obtain ⟨u, hu⟩ := hsuf
  refine ⟨_, _, EditBasic_eq text cp completion seed h0 h1, ?_⟩
  rw [← hu, TrimSuffix_append]
  obtain ⟨n, rfl⟩ := Int.eq_ofNat_of_zero_le h0
  have hn : n ≤ text.length := by omega
  simp only [Int.toNat_ofNat] at hu ⊢
  have hlen : u.length + seed.length = n := by
    have := congrArg List.length hu
    simp only [List.length_append, List.length_take] at this
    omega
  have hpos : (n : Int) + ((completion.length : Int) - (seed.length : Int))
      = ((u.length + completion.length : Nat) : Int) := by
    push_cast; omega
  have htl : text.length = n + (text.drop n).length := by
    rw [List.length_drop]; omega
  rw [hpos]
  refine ⟨?_, ⟨u ++ completion, ?_, List.suffix_append u completion⟩, ?_⟩
  · simp only [List.length_append]
    push_cast
    omega
  · have := slice_ok (u ++ completion ++ text.drop n) 0 (u.length + completion.length)
      (Nat.zero_le _) (by simp)
    simp only [Nat.cast_zero, List.drop_zero] at this
    rw [this]
    congr 1
    rw [← List.length_append, List.take_left']
    rfl
  · rw [slice_ok (u ++ completion ++ text.drop n) (u.length + completion.length) _
      (by simp) (le_refl _)]
    congr 1
    rw [List.take_length, ← List.length_append, List.drop_left']
    rfl

/-- Witness for C6 (amended): `EditBasic("foo.bar", 3, "foobaz", "foo")`. -/
theorem EditBasic_delta_of_suffix_witness :
    (0 : Int) ≤ 3 ∧ (3 : Int) ≤ (([102, 111, 111, 46, 98, 97, 114] : Str).length : Int)
      ∧ ([102, 111, 111] : Str) <:+ ([102, 111, 111, 46, 98, 97, 114] : Str).take (3 : Int).toNat
      ∧ ∃ newText delta, EditBasic [102, 111, 111, 46, 98, 97, 114] 3
            [102, 111, 111, 98, 97, 122] [102, 111, 111] = .ok (newText, delta)
          ∧ (newText.length : Int)
              = (([102, 111, 111, 46, 98, 97, 114] : Str).length : Int) + delta
          ∧ (∃ before, slice newText 0 (3 + delta) = .ok before
              ∧ [102, 111, 111, 98, 97, 122] <:+ before)
          ∧ slice newText (3 + delta) (newText.length : Int)
              = .ok (([102, 111, 111, 46, 98, 97, 114] : Str).drop (3 : Int).toNat) :=
  ⟨by decide, by decide, by decide,
    EditBasic_delta_of_suffix [102, 111, 111, 46, 98, 97, 114] 3 [102, 111, 111, 98, 97, 122]
      [102, 111, 111] (by decide) (by decide) (by decide)⟩

/-- C7, as stated, fails in its iteration bound: the pass that finds the first match
exhausted and breaks is an iteration too.  On `[""]` with the empty seed the loop body
is entered once, and `len(matches[0])` is 0; on `["a"]` it is entered twice. -/
theorem ExtendSeed_iterations_counterexample :
    ExtendSeedRun 1 [[]] [] = .ok ([], 1)
      ∧ ¬ (1 ≤ ([] : Str).length)
      ∧ ExtendSeedRun 2 [[97]] [] = .ok ([97], 2)
      ∧ ¬ (2 ≤ ([97] : Str).length) := by
  decide

/-- C7, amended: `ExtendSeed` fails (index out of range on `matches[0]`) exactly
when `matches` is empty.  On the empty list it fails for every seed; on every non-empty
list, for every seed, it terminates and returns a string (so no slice is out of
bounds), after entering the loop body at most `len(matches[0]) + 1` times. -/
theorem ExtendSeed_fails_iff_empty :
    (∀ (fuel : Nat) (seed : Str),
        ExtendSeedRun fuel [] seed = .indexOutOfRange
          ∧ ExtendSeed fuel [] seed = .indexOutOfRange)
      ∧ (∀ (first : Str) (rest : List Str) (seed : Str) (fuel : Nat), first.length < fuel →
          ∃ ext n, ExtendSeedRun fuel (first :: rest) seed = .ok (ext, n)
            ∧ ExtendSeed fuel (first :: rest) seed = .ok ext
            ∧ n ≤ first.length + 1) := by
  constructor
  · intro fuel seed
    exact ⟨rfl, rfl⟩
  · intro first rest seed fuel hfuel
    obtain ⟨r, n, h1, h2, h3, _⟩ := ExtendSeedRun_spec first rest seed fuel hfuel
    exact ⟨_, n, h1, h2, h3⟩

/-- Witness for C7 (amended): `["abc"]` with the empty seed, four iterations. -/
theorem ExtendSeed_fails_iff_empty_witness :
    ([97, 98, 99] : Str).length < 4
      ∧ (∃ ext n, ExtendSeedRun 4 [[97, 98, 99]] [] = .ok (ext, n)
          ∧ ExtendSeed 4 [[97, 98, 99]] [] = .ok ext
          ∧ n ≤ ([97, 98, 99] : Str).length + 1)
      ∧ ExtendSeedRun 4 [[97, 98, 99]] [] = .ok ([97, 98, 99], 4) :=
  ⟨by decide, ExtendSeed_fails_iff_empty.2 [97, 98, 99] [] [] 4 (by decide), by decide⟩

/-- C9, as stated, fails: with seed `"abc"` and matches `["a"]` the loop stops at
once, the extension is empty, and `0 + len("abc")` exceeds `len("a")`. -/
theorem ExtendSeed_length_counterexample :
    ExtendSeed 2 [[97]] [97, 98, 99] = .ok []
      ∧ ¬ (∀ m ∈ [([97] : Str)], ([] : Str).length + ([97, 98, 99] : Str).length ≤ m.length) := by
  decide

/-- C9, amended: for a non-empty list and a seed that is a prefix of every element,
`len(ExtendSeed(matches, seed)) + len(seed)` is at most the length of every element
of `matches`, the shortest included. -/
theorem ExtendSeed_length_bound (first : Str) (rest : List Str) (seed : Str)
    (fuel : Nat) (hfuel : first.length < fuel) (hseed : ∀ m ∈ first :: rest, seed <+: m) :
    ∃ ext, ExtendSeed fuel (first :: rest) seed = .ok ext
      ∧ ∀ m ∈ first :: rest, ext.length + seed.length ≤ m.length := by
  obtain ⟨ext, he, hpre, _⟩ := ExtendSeed_prefix_spec first rest seed fuel hfuel hseed
  refine ⟨ext, he, fun m hm => ?_⟩
  have := (hpre m hm).length_le
  simp only [List.length_append] at this
  omega

/-- Witness for C9 (amended): seed `"ab"` with `["abcde","abcdf","abcd"]`. -/
theorem ExtendSeed_length_bound_witness :
    ([97, 98, 99, 100, 101] : Str).length < 6
      ∧ (∀ m ∈ [[97, 98, 99, 100, 101], [97, 98, 99, 100, 102], [97, 98, 99, 100]],
          ([97, 98] : Str) <+: m)
      ∧ ∃ ext, ExtendSeed 6 [[97, 98, 99, 100, 101], [97, 98, 99, 100, 102], [97, 98, 99, 100]]
            [97, 98] = .ok ext
          ∧ ∀ m ∈ [[97, 98, 99, 100, 101], [97, 98, 99, 100, 102], [97, 98, 99, 100]],
              ext.length + ([97, 98] : Str).length ≤ m.length :=
  ⟨by decide, by decide,
    ExtendSeed_length_bound [97, 98, 99, 100, 101] [[97, 98, 99, 100, 102], [97, 98, 99, 100]]
      [97, 98] 6 (by decide) (by decide)⟩

/-- C10: on a text of ASCII bytes (all below 0x80), `SeedWhiteSpace` returns the
suffix after the last whitespace byte (space, `\t`, `\n`, `\v`, `\f`, `\r`), the whole
text when there is none, and the result contains no whitespace byte. -/
theorem SeedWhiteSpace_ascii (text : Str) (hascii : ∀ b ∈ text, b < 0x80) :
    ∃ seed, SeedWhiteSpace text = .ok seed
      ∧ seed <:+ text
      ∧ (∀ b ∈ seed, b ∉ [0x20, 0x09, 0x0A, 0x0B, 0x0C, 0x0D])
      ∧ ((∀ b ∈ text, b ∉ [0x20, 0x09, 0x0A, 0x0B, 0x0C, 0x0D]) → seed = text)
      ∧ (∀ (pre suf : Str) (w : Nat), text = pre ++ w :: suf →
          w ∈ [0x20, 0x09, 0x0A, 0x0B, 0x0C, 0x0D] →
          (∀ b ∈ suf, b ∉ [0x20, 0x09, 0x0A, 0x0B, 0x0C, 0x0D]) → seed = suf) := by
  obtain ⟨j, hj, _, hno, _⟩ := SeedWhiteSpace_spec text
  have hnot : ∀ (l : Str), (∀ b ∈ l, b < 0x80) →
      (∀ b ∈ l, b ∉ [0x20, 0x09, 0x0A, 0x0B, 0x0C, 0x0D]) → ∀ b ∈ l, IsSpace b = false := by
    intro l hl h b hb
    rw [← Bool.not_eq_true]
    exact fun hs => h b hb ((IsSpace_ascii b (hl b hb)).mp hs)
  refine ⟨text.drop j, hj, List.drop_suffix j text, ?_, ?_, ?_⟩
  · intro b hb hmem
    have hlt : b < 0x80 := hascii b (List.mem_of_mem_drop hb)
    have := hno b hb
    rw [(IsSpace_ascii b hlt).mpr hmem] at this
    cases this
  · intro h
    have := SeedWhiteSpace_no_space text (hnot text hascii h)
    rw [hj] at this
    exact Res.ok.inj this
  · intro pre suf w ht hw hsuf
    subst ht
    have hwlt : w < 0x80 := hascii w (by simp)
    have hsuflt : ∀ b ∈ suf, b < 0x80 := fun b hb => hascii b (by simp [hb])
    have := SeedWhiteSpace_after_last pre suf w ((IsSpace_ascii w hwlt).mpr hw)
      (hnot suf hsuflt hsuf)
    rw [hj] at this
    exact Res.ok.inj this

/-- Witness for C10: `SeedWhiteSpace("hello world frob") = "frob"` and
`SeedWhiteSpace("noWhitespaceHere") = "noWhitespaceHere"`. -/
theorem SeedWhiteSpace_ascii_witness :
    (∀ b ∈ ([104, 101, 108, 108, 111, 32, 119, 111, 114, 108, 100, 32, 102, 114, 111, 98] : Str),
        b < 0x80)
      ∧ (∃ seed, SeedWhiteSpace
            [104, 101, 108, 108, 111, 32, 119, 111, 114, 108, 100, 32, 102, 114, 111, 98]
            = .ok seed
          ∧ seed <:+ [104, 101, 108, 108, 111, 32, 119, 111, 114, 108, 100, 32, 102, 114, 111, 98]
          ∧ (∀ b ∈ seed, b ∉ [0x20, 0x09, 0x0A, 0x0B, 0x0C, 0x0D])
          ∧ ((∀ b ∈ ([104, 101, 108, 108, 111, 32, 119, 111, 114, 108, 100, 32, 102, 114, 111,
                98] : Str), b ∉ [0x20, 0x09, 0x0A, 0x0B, 0x0C, 0x0D]) →
              seed = [104, 101, 108, 108, 111, 32, 119, 111, 114, 108, 100, 32, 102, 114, 111, 98])
          ∧ (∀ (pre suf : Str) (w : Nat),
              [104, 101, 108, 108, 111, 32, 119, 111, 114, 108, 100, 32, 102, 114, 111, 98]
                = pre ++ w :: suf →
              w ∈ [0x20, 0x09, 0x0A, 0x0B, 0x0C, 0x0D] →
              (∀ b ∈ suf, b ∉ [0x20, 0x09, 0x0A, 0x0B, 0x0C, 0x0D]) → seed = suf))
      ∧ SeedWhiteSpace
          [104, 101, 108, 108, 111, 32, 119, 111, 114, 108, 100, 32, 102, 114, 111, 98]
          = .ok [102, 114, 111, 98]
      ∧ SeedWhiteSpace
          [110, 111, 87, 104, 105, 116, 101, 115, 112, 97, 99, 101, 72, 101, 114, 101]
          = .ok [110, 111, 87, 104, 105, 116, 101, 115, 112, 97, 99, 101, 72, 101, 114, 101] :=
  ⟨by decide,
    SeedWhiteSpace_ascii
      [104, 101, 108, 108, 111, 32, 119, 111, 114, 108, 100, 32, 102, 114, 111, 98] (by decide),
    by decide, by decide⟩

/-- C11: `EditBasic` is not idempotent.  On `"foo.bar"`, cursor 3, completion
`"foobaz"`, seed `"foo"` the first application gives `("foobaz.bar", 3)`; applied
again at cursor `3 + 3` with the same completion and seed, the text before the cursor
no longer ends with the seed and the result is `"foobazfoobaz.bar"`, a different text. -/
theorem EditBasic_not_idempotent :
    ∃ (text : Str) (cp : Int) (completion seed newText : Str) (delta : Int)
        (newText2 : Str) (delta2 : Int),
      0 ≤ cp ∧ cp ≤ (text.length : Int)
        ∧ EditBasic text cp completion seed = .ok (newText, delta)
        ∧ ¬ seed <:+ newText.take (cp + delta).toNat
        ∧ EditBasic newText (cp + delta) completion seed = .ok (newText2, delta2)
        ∧ newText2 ≠ newText
        ∧ text = [102, 111, 111, 46, 98, 97, 114] ∧ cp = 3
        ∧ completion = [102, 111, 111, 98, 97, 122] ∧ seed = [102, 111, 111]
        ∧ newText = [102, 111, 111, 98, 97, 122, 46, 98, 97, 114] :=
  ⟨[102, 111, 111, 46, 98, 97, 114], 3, [102, 111, 111, 98, 97, 122], [102, 111, 111],
    [102, 111, 111, 98, 97, 122, 46, 98, 97, 114], 3,
    [102, 111, 111, 98, 97, 122, 102, 111, 111, 98, 97, 122, 46, 98, 97, 114], 3,
    by decide, by decide, by decide, by decide, by decide, by decide, rfl, rfl, rfl, rfl, rfl⟩

/-- C12: `MatchSeed`, `SeedWhiteSpace` and `EditBasic` are total over their stated
preconditions: `MatchSeed` returns a list for every candidate list (the empty one
included) and every seed, `SeedWhiteSpace` returns a string for every text, and
`EditBasic` returns a text and a delta for every text and cursor with
`0 <= cp <= len(text)`; none of them panics or reports a failure. -/
theorem operations_total :
    (∀ (cs : List Str) (seed : Str), ∃ r, MatchSeed cs seed = .ok r)
      ∧ (∀ seed : Str, MatchSeed [] seed = .ok [])
      ∧ (∀ text : Str, ∃ r, SeedWhiteSpace text = .ok r)
      ∧ (∀ (text : Str) (cp : Int) (completion seed : Str),
          0 ≤ cp → cp ≤ (text.length : Int) →
          ∃ newText delta, EditBasic text cp completion seed = .ok (newText, delta)) := by
  have hms : ∀ (cs : List Str) (seed : Str), ∃ r, MatchSeed cs seed = .ok r := by
    intro cs seed
    by_cases hs : seed = []
    · subst hs
      have h00 : slice cs 0 0 = .ok [] := by
        have := slice_ok cs 0 0 (le_refl _) (Nat.zero_le _)
        simpa using this
      refine ⟨[], ?_⟩
      unfold MatchSeed matchBounds
      rw [h00]
      simp [Res.bind]
    · exact ⟨_, MatchSeed_eq_run cs seed hs⟩
  refine ⟨hms, ?_, ?_, ?_⟩
  · intro seed
    by_cases hs : seed = []
    · subst hs; rfl
    · rw [MatchSeed_eq_run [] seed hs]; rfl
  · intro text
    obtain ⟨j, hj, _⟩ := SeedWhiteSpace_spec text
    exact ⟨_, hj⟩
  · intro text cp completion seed h0 h1
    exact ⟨_, _, EditBasic_eq text cp completion seed h0 h1⟩

/-- Witness for C12: `EditBasic("foo.bar", 7, "x", "bar")`, cursor at the end. -/
theorem operations_total_witness :
    (0 : Int) ≤ 7 ∧ (7 : Int) ≤ (([102, 111, 111, 46, 98, 97, 114] : Str).length : Int)
      ∧ (∃ newText delta,
          EditBasic [102, 111, 111, 46, 98, 97, 114] 7 [120] [98, 97, 114]
            = .ok (newText, delta))
      ∧ EditBasic [102, 111, 111, 46, 98, 97, 114] 7 [120] [98, 97, 114]
          = .ok ([102, 111, 111, 46, 120], -2) :=
  ⟨by decide, by decide,
    operations_total.2.2.2 [102, 111, 111, 46, 98, 97, 114] 7 [120] [98, 97, 114]
      (by decide) (by decide),
    by decide⟩

theorem takeWhile_append_stop {α : Type} (p : α → Bool) (run post : List α)
    (hrun : ∀ c ∈ run, p c = true) (hpost : ∀ c, post.head? = some c → p c = false) :
    (run ++ post).takeWhile p = run := by
  induction run with
  | nil =>
    cases post with
    | nil => rfl
    | cons c t => simp [List.takeWhile_cons, hpost c rfl]
  | cons c t ih =>
    have hc := hrun c (List.mem_cons_self _ _)
    simp only [List.cons_append, List.takeWhile_cons, hc, if_true]
    rw [ih (fun x hx => hrun x (List.mem_cons_of_mem _ hx))]

theorem dropWhile_append_skip {α : Type} (p : α → Bool) (pre rest : List α)
    (hpre : ∀ c ∈ pre, p c = true) :
    (pre ++ rest).dropWhile p = rest.dropWhile p := by
  induction pre with
  | nil => rfl
  | cons c t ih =>
    have hc := hpre c (List.mem_cons_self _ _)
    simp only [List.cons_append, List.dropWhile_cons, hc, if_true]
    exact ih (fun x hx => hpre x (List.mem_cons_of_mem _ hx))

theorem HasPrefix_false_iff (s pre : Str) : HasPrefix s pre = false ↔ ¬ pre <+: s := by
  rw [← HasPrefix_iff, Bool.not_eq_true]

/-- C13: for every candidate list, sorted or not, and every non-empty seed,
`MatchSeed` returns the slice `[match_start, match_end)`: with `pre` the elements
before the first one that has the seed as a prefix, `run` the elements from there up
to the first one that does not (or the end of the list), the result is `run`, which is
`completions[len(pre) : len(pre)+len(run)]`; it is empty when no element has the seed
as a prefix; and every returned element has the seed as a prefix. -/
theorem MatchSeed_first_run (cs : List Str) (seed : Str) (hseed : seed ≠ []) :
    ((∀ c ∈ cs, ¬ seed <+: c) → MatchSeed cs seed = .ok [])
      ∧ (∀ pre run post : List Str, cs = pre ++ run ++ post →
          (∀ c ∈ pre, ¬ seed <+: c) → run ≠ [] → (∀ c ∈ run, seed <+: c) →
          (∀ c, post.head? = some c → ¬ seed <+: c) →
          MatchSeed cs seed = .ok run
            ∧ slice cs (pre.length : Int) ((pre.length : Int) + (run.length : Int)) = .ok run)
      ∧ (∀ r, MatchSeed cs seed = .ok r → ∀ c ∈ r, seed <+: c) := by
  rw [MatchSeed_eq_run cs seed hseed]
  refine ⟨?_, ?_, ?_⟩
  · intro hno
    have : cs.dropWhile (fun c => !HasPrefix c seed) = [] := by
      rw [List.dropWhile_eq_nil_iff]
      intro c hc
      simp [(HasPrefix_false_iff c seed).mpr (hno c hc)]
    rw [this]; rfl
  · intro pre run post hcs hpre hne hrun hpost
    subst hcs
    constructor
    · congr 1
      rw [List.append_assoc, dropWhile_append_skip _ pre (run ++ post)
        (fun c hc => by simp [(HasPrefix_false_iff c seed).mpr (hpre c hc)])]
      have hd : (run ++ post).dropWhile (fun c => !HasPrefix c seed) = run ++ post := by
        cases run with
        | nil => exact absurd rfl hne
        | cons c t =>
          have hc := (HasPrefix_iff c seed).mpr (hrun c (List.mem_cons_self _ _))
          simp [List.dropWhile_cons, hc]
      rw [hd]
      exact takeWhile_append_stop _ run post
        (fun c hc => (HasPrefix_iff c seed).mpr (hrun c hc))
        (fun c hc => (HasPrefix_false_iff c seed).mpr (hpost c hc))
    · have := slice_ok (pre ++ run ++ post) pre.length (pre.length + run.length)
        (by omega) (by simp)
      rw [Nat.cast_add] at this
      rw [this]
      congr 1
      rw [← List.length_append, List.take_left', List.drop_left']
      · rfl
      · rfl
  · intro r hr c hc
    have hr2 := Res.ok.inj hr
    rw [← hr2] at hc
    exact (HasPrefix_iff c seed).mp
      (List.mem_takeWhile_imp (p := fun c => HasPrefix c seed) hc)

/-- Witness for C13: the unsorted list `["c","ab","ac","d","ad"]` with seed `"a"`. -/
theorem MatchSeed_first_run_witness :
    ([97] : Str) ≠ []
      ∧ (([[99], [97, 98], [97, 99], [100], [97, 100]] : List Str)
          = [[99]] ++ [[97, 98], [97, 99]] ++ [[100], [97, 100]])
      ∧ MatchSeed [[99], [97, 98], [97, 99], [100], [97, 100]] [97] = .ok [[97, 98], [97, 99]]
      ∧ slice ([[99], [97, 98], [97, 99], [100], [97, 100]] : List Str)
          ((([[99]] : List Str).length : Int))
          ((([[99]] : List Str).length : Int) + (([[97, 98], [97, 99]] : List Str).length : Int))
          = .ok [[97, 98], [97, 99]] :=
  ⟨by decide, by decide,
    ((MatchSeed_first_run [[99], [97, 98], [97, 99], [100], [97, 100]] [97] (by decide)).2.1
      [[99]] [[97, 98], [97, 99]] [[100], [97, 100]] (by decide) (by decide) (by decide)
      (by decide) (by decide)).1,
    ((MatchSeed_first_run [[99], [97, 98], [97, 99], [100], [97, 100]] [97] (by decide)).2.1
      [[99]] [[97, 98], [97, 99]] [[100], [97, 100]] (by decide) (by decide) (by decide)
      (by decide) (by decide)).2⟩

/-- C15: on an unsorted list `MatchSeed` reports no failure and can miss matches:
`["ab","c","ac"]` with seed `"a"` returns `["ab"]`, and `"ac"`, which has the seed as
a prefix, is not in the result. -/
theorem MatchSeed_unsorted_incomplete :
    ¬ Sorted [[97, 98], [99], [97, 99]]
      ∧ ([97] : Str) ≠ []
      ∧ MatchSeed [[97, 98], [99], [97, 99]] [97] = .ok [[97, 98]]
      ∧ ([97, 99] : Str) ∈ ([[97, 98], [99], [97, 99]] : List Str)
      ∧ ([97] : Str) <+: [97, 99]
      ∧ ([97, 99] : Str) ∉ ([[97, 98]] : List Str) := by
  decide

theorem utf8Scan_ascii (s : Str) (lo hi : Nat) (h : ∀ b ∈ s, b < 0x80) :
    utf8Scan s 0 lo hi = true := by
  induction s generalizing lo hi with
  | nil => rfl
  | cons b rest ih =>
    have hb : b < 0x80 := h b (List.mem_cons_self _ _)
    unfold utf8Scan
    rw [if_pos hb]
    exact ih _ _ (fun x hx => h x (List.mem_cons_of_mem _ hx))

/-- C14, as stated, fails: the seed grows one byte at a time.  With matches
`a` U+00E9 and `a` U+00E8 (bytes 61 C3 A9 and 61 C3 A8), both valid UTF-8, and seed
`"a"`, the common byte C3 is accepted and the returned extension is the single byte
C3, the first half of a two-byte character. -/
theorem ExtendSeed_splits_character :
    ValidString [0x61, 0xC3, 0xA9] = true ∧ ValidString [0x61, 0xC3, 0xA8] = true
      ∧ ValidString [0x61] = true
      ∧ (∀ m ∈ [[0x61, 0xC3, 0xA9], [0x61, 0xC3, 0xA8]], ([0x61] : Str) <+: m)
      ∧ ExtendSeed 4 [[0x61, 0xC3, 0xA9], [0x61, 0xC3, 0xA8]] [0x61] = .ok [0xC3]
      ∧ ValidString [0xC3] = false := by
  decide

/-- C14, amended: `ExtendSeed` grows the seed one byte at a time.  For every non-empty
list of ASCII strings (all bytes below 0x80) and every seed that is a prefix of every
element, it returns, `seed ++ extension` is a byte prefix of the first element, and the
extension is valid UTF-8. -/
theorem ExtendSeed_ascii_valid (first : Str) (rest : List Str) (seed : Str) (fuel : Nat)
    (hfuel : first.length < fuel) (hseed : ∀ m ∈ first :: rest, seed <+: m)
    (hascii : ∀ m ∈ first :: rest, ∀ b ∈ m, b < 0x80) :
    ∃ ext, ExtendSeed fuel (first :: rest) seed = .ok ext
      ∧ seed ++ ext <+: first
      ∧ ValidString ext = true := by
  obtain ⟨ext, he, hpre, _⟩ := ExtendSeed_prefix_spec first rest seed fuel hfuel hseed
  have hp : seed ++ ext <+: first := hpre first (List.mem_cons_self _ _)
  refine ⟨ext, he, hp, ?_⟩
  apply utf8Scan_ascii
  intro b hb
  exact hascii first (List.mem_cons_self _ _) b (hp.subset (List.mem_append_right _ hb))

/-- Witness for C14 (amended): seed `"ab"` with `["abcde","abcdf"]`. -/
theorem ExtendSeed_ascii_valid_witness :
    ([97, 98, 99, 100, 101] : Str).length < 6
      ∧ (∀ m ∈ [[97, 98, 99, 100, 101], [97, 98, 99, 100, 102]], ([97, 98] : Str) <+: m)
      ∧ (∀ m ∈ [[97, 98, 99, 100, 101], [97, 98, 99, 100, 102]], ∀ b ∈ m, b < 0x80)
      ∧ ∃ ext, ExtendSeed 6 [[97, 98, 99, 100, 101], [97, 98, 99, 100, 102]] [97, 98] = .ok ext
          ∧ [97, 98] ++ ext <+: [97, 98, 99, 100, 101]
          ∧ ValidString ext = true :=
  ⟨by decide, by decide, by decide,
    ExtendSeed_ascii_valid [97, 98, 99, 100, 101] [[97, 98, 99, 100, 102]] [97, 98] 6
      (by decide) (by decide) (by decide)⟩

theorem takeWhile_refine {α : Type} (p q : α → Bool) (t : List α)
    (hqp : ∀ c, q c = true → p c = true) (hrun : ∀ c ∈ t.takeWhile p, q c = true) :
    t.takeWhile q = t.takeWhile p := by
  induction t with
  | nil => rfl
  | cons c t ih =>
    by_cases hp : p c = true
    · have hmem : c ∈ (c :: t).takeWhile p := by simp [List.takeWhile_cons, hp]
      have hq := hrun c hmem
      simp only [List.takeWhile_cons, hp, hq, if_true]
      rw [ih (fun x hx => hrun x (by simp [List.takeWhile_cons, hp, hx]))]
    · have hq : ¬ q c = true := fun h => hp (hqp c h)
      simp [List.takeWhile_cons, hp, hq]

theorem run_refine {α : Type} (p q : α → Bool) (cs : List α)
    (hqp : ∀ c, q c = true → p c = true)
    (hrun : ∀ c ∈ (cs.dropWhile (fun c => !p c)).takeWhile p, q c = true) :
    (cs.dropWhile (fun c => !q c)).takeWhile q = (cs.dropWhile (fun c => !p c)).takeWhile p := by
  induction cs with
  | nil => rfl
  | cons c t ih =>
    by_cases hp : p c = true
    · have hd : (c :: t).dropWhile (fun c => !p c) = c :: t := by
        simp [List.dropWhile_cons, hp]
      rw [hd] at hrun ⊢
      have hq : q c = true := hrun c (by simp [List.takeWhile_cons, hp])
      have hd2 : (c :: t).dropWhile (fun c => !q c) = c :: t := by
        simp [List.dropWhile_cons, hq]
      rw [hd2]
      exact takeWhile_refine p q (c :: t) hqp hrun
    · have hq : ¬ q c = true := fun h => hp (hqp c h)
      have hd : (c :: t).dropWhile (fun c => !p c) = t.dropWhile (fun c => !p c) := by
        simp [List.dropWhile_cons, hp]
      have hd2 : (c :: t).dropWhile (fun c => !q c) = t.dropWhile (fun c => !q c) := by
        simp [List.dropWhile_cons, hq]
      rw [hd] at hrun ⊢
      rw [hd2]
      exact ih hrun

/-- C16: auto-extending the seed never changes the match set.  For every candidate
list, sorted or not, and every non-empty seed whose match list is non-empty,
`ExtendSeed` on that match list returns, and `MatchSeed` with the extended seed
returns the same list. -/
theorem MatchSeed_extended_seed (cs : List Str) (seed first : Str) (rest : List Str)
    (fuel : Nat) (hseed : seed ≠ []) (hm : MatchSeed cs seed = .ok (first :: rest))
    (hfuel : first.length < fuel) :
    ∃ ext, ExtendSeed fuel (first :: rest) seed = .ok ext
      ∧ MatchSeed cs (seed ++ ext) = .ok (first :: rest) := by
  have hrun := Res.ok.inj ((MatchSeed_eq_run cs seed hseed).symm.trans hm)
  have hall : ∀ m ∈ first :: rest, seed <+: m := by
    intro m hmem
    rw [← hrun] at hmem
    exact (HasPrefix_iff m seed).mp
      (List.mem_takeWhile_imp (p := fun c => HasPrefix c seed) hmem)
  obtain ⟨ext, he, hpre, _⟩ := ExtendSeed_prefix_spec first rest seed fuel hfuel hall
  refine ⟨ext, he, ?_⟩
  have hne : seed ++ ext ≠ [] := by
    intro h
    exact hseed (List.append_eq_nil.mp h).1
  rw [MatchSeed_eq_run cs (seed ++ ext) hne]
  congr 1
  rw [← hrun]
  apply run_refine (fun c => HasPrefix c seed) (fun c => HasPrefix c (seed ++ ext)) cs
  · intro c hc
    exact (HasPrefix_iff c seed).mpr
      ((List.prefix_append seed ext).trans ((HasPrefix_iff c _).mp hc))
  · intro c hc
    rw [hrun] at hc
    exact (HasPrefix_iff c _).mpr (hpre c hc)

/-- Witness for C16: the unsorted list `["x","abcd","abce","y","abz"]` with seed
`"a"`: the matches are `["abcd","abce"]`, the extension is `"bc"`, and `"abc"` matches
the same two. -/
theorem MatchSeed_extended_seed_witness :
    ([97] : Str) ≠ []
      ∧ MatchSeed [[120], [97, 98, 99, 100], [97, 98, 99, 101], [121], [97, 98, 122]] [97]
          = .ok [[97, 98, 99, 100], [97, 98, 99, 101]]
      ∧ ([97, 98, 99, 100] : Str).length < 5
      ∧ (∃ ext, ExtendSeed 5 [[97, 98, 99, 100], [97, 98, 99, 101]] [97] = .ok ext
          ∧ MatchSeed [[120], [97, 98, 99, 100], [97, 98, 99, 101], [121], [97, 98, 122]]
              ([97] ++ ext) = .ok [[97, 98, 99, 100], [97, 98, 99, 101]])
      ∧ ExtendSeed 5 [[97, 98, 99, 100], [97, 98, 99, 101]] [97] = .ok [98, 99] :=
  ⟨by decide, by decide, by decide,
    MatchSeed_extended_seed [[120], [97, 98, 99, 100], [97, 98, 99, 101], [121], [97, 98, 122]]
      [97] [97, 98, 99, 100] [[97, 98, 99, 101]] 5 (by decide) (by decide) (by decide),
    by decide⟩

/-- C17: `EditBasic` is undone by swapping seed and completion.  For a cursor
`0 <= cp <= len(text)` such that `text[0:cp]` ends with the seed, with
`(newText, delta) = EditBasic(text, cp, completion, seed)`,
`EditBasic(newText, cp + delta, seed, completion) = (text, -delta)`. -/
theorem EditBasic_undo (text : Str) (cp : Int) (completion seed : Str)
    (h0 : 0 ≤ cp) (h1 : cp ≤ (text.length : Int)) (hsuf : seed <:+ text.take cp.toNat) :
    ∃ newText delta, EditBasic text cp completion seed = .ok (newText, delta)
      ∧ EditBasic newText (cp + delta) seed completion = .ok (text, -delta) := by
  obtain ⟨u, hu⟩ := hsuf
  refine ⟨_, _, EditBasic_eq text cp completion seed h0 h1, ?_⟩
  rw [← hu, TrimSuffix_append]
  obtain ⟨n, rfl⟩ := Int.eq_ofNat_of_zero_le h0
  simp only [Int.toNat_ofNat] at hu ⊢
  have hlen : u.length + seed.length = n := by
    have := congrArg List.length hu
    simp only [List.length_append, List.length_take] at this
    omega
  have hpos : (n : Int) + ((completion.length : Int) - (seed.length : Int))
      = ((u.length + completion.length : Nat) : Int) := by
    push_cast; omega
  rw [hpos]
  have htake : (u ++ completion ++ text.drop n).take (u.length + completion.length)
      = u ++ completion := by
    rw [← List.length_append, List.take_left']
    rfl
  have hdrop : (u ++ completion ++ text.drop n).drop (u.length + completion.length)
      = text.drop n := by
    rw [← List.length_append, List.drop_left']
    rfl
  rw [EditBasic_eq (u ++ completion ++ text.drop n) _ seed completion (by omega)
    (by simp only [List.length_append]; push_cast; omega)]
  simp only [Int.toNat_ofNat]
  rw [htake, hdrop, TrimSuffix_append, hu, List.take_append_drop]
  congr 2
  omega

/-- Witness for C17: `EditBasic("foo.bar", 3, "foobaz", "foo")` and back. -/
theorem EditBasic_undo_witness :
    (0 : Int) ≤ 3 ∧ (3 : Int) ≤ (([102, 111, 111, 46, 98, 97, 114] : Str).length : Int)
      ∧ ([102, 111, 111] : Str) <:+ ([102, 111, 111, 46, 98, 97, 114] : Str).take (3 : Int).toNat
      ∧ (∃ newText delta, EditBasic [102, 111, 111, 46, 98, 97, 114] 3
            [102, 111, 111, 98, 97, 122] [102, 111, 111] = .ok (newText, delta)
          ∧ EditBasic newText (3 + delta) [102, 111, 111] [102, 111, 111, 98, 97, 122]
              = .ok ([102, 111, 111, 46, 98, 97, 114], -delta))
      ∧ EditBasic [102, 111, 111, 98, 97, 122, 46, 98, 97, 114] 6 [102, 111, 111]
            [102, 111, 111, 98, 97, 122]
          = .ok ([102, 111, 111, 46, 98, 97, 114], -3) :=
  ⟨by decide, by decide, by decide,
    EditBasic_undo [102, 111, 111, 46, 98, 97, 114] 3 [102, 111, 111, 98, 97, 122]
      [102, 111, 111] (by decide) (by decide) (by decide),
    by decide⟩

theorem IsSpace_of_latin1_space (b : Nat)
    (h : b ∈ [0x09, 0x0A, 0x0B, 0x0C, 0x0D, 0x20, 0x85, 0xA0]) : IsSpace b = true := by
  simp only [List.mem_cons, List.mem_singleton, List.not_mem_nil, or_false] at h
  rcases h with h | h | h | h | h | h | h | h <;> subst h <;> decide

/-- C18: `SeedWhiteSpace` is idempotent on every byte string.  Its result is a suffix
of the text with no byte that `unicode.IsSpace(rune(b))` accepts (none of 0x09-0x0D,
0x20, 0x85, 0xA0), so applying `SeedWhiteSpace` to the result returns the result. -/
theorem SeedWhiteSpace_idempotent (text : Str) :
    ∃ r, SeedWhiteSpace text = .ok r
      ∧ r <:+ text
      ∧ (∀ b ∈ r, IsSpace b = false)
      ∧ (∀ b ∈ r, b ∉ [0x09, 0x0A, 0x0B, 0x0C, 0x0D, 0x20, 0x85, 0xA0])
      ∧ SeedWhiteSpace r = .ok r
      ∧ (SeedWhiteSpace text).bind SeedWhiteSpace = SeedWhiteSpace text := by
  obtain ⟨j, hj, _, hno, _⟩ := SeedWhiteSpace_spec text
  have hidem := SeedWhiteSpace_no_space (text.drop j) hno
  refine ⟨text.drop j, hj, List.drop_suffix j text, hno, ?_, hidem, ?_⟩
  · intro b hb hmem
    have := hno b hb
    rw [IsSpace_of_latin1_space b hmem] at this
    cases this
  · rw [hj]
    exact hidem

/-- Witness for C18: the bytes of `a`, U+00E0, space, `b`, U+00E0 (61 C3 A0 20 62 C3
A0): the result is empty, since the last byte A0 is accepted, and stays empty. -/
theorem SeedWhiteSpace_idempotent_witness :
    (∃ r, SeedWhiteSpace [0x61, 0xC3, 0xA0, 0x20, 0x62, 0xC3, 0xA0] = .ok r
        ∧ r <:+ [0x61, 0xC3, 0xA0, 0x20, 0x62, 0xC3, 0xA0]
        ∧ (∀ b ∈ r, IsSpace b = false)
        ∧ (∀ b ∈ r, b ∉ [0x09, 0x0A, 0x0B, 0x0C, 0x0D, 0x20, 0x85, 0xA0])
        ∧ SeedWhiteSpace r = .ok r
        ∧ (SeedWhiteSpace [0x61, 0xC3, 0xA0, 0x20, 0x62, 0xC3, 0xA0]).bind SeedWhiteSpace
            = SeedWhiteSpace [0x61, 0xC3, 0xA0, 0x20, 0x62, 0xC3, 0xA0])
      ∧ SeedWhiteSpace [0x61, 0xC3, 0xA0, 0x20, 0x62, 0xC3, 0xA0] = .ok []
      ∧ SeedWhiteSpace [0x61, 0x20, 0x62, 0xC3] = .ok [0x62, 0xC3]
      ∧ SeedWhiteSpace [0x62, 0xC3] = .ok [0x62, 0xC3] :=
  ⟨SeedWhiteSpace_idempotent [0x61, 0xC3, 0xA0, 0x20, 0x62, 0xC3, 0xA0],
    by decide, by decide, by decide⟩

end Complete
